import Mathlib

/-!
Verification development for the cirrus Route 53 reconciliation engine
(`cirrus/r53.py`, class `Zone`).  The Python code is shallowly embedded:
strings are Lean `String`s manipulated at the character-list level so that
Python slicing (`s[1:7]`, `s[:-1]`), `str.split()`, `str.strip('"')` and
`list.sort()` are modelled faithfully; Python dictionaries are association
lists in insertion order; exceptions (`IndexError` on `words[1]` /
`words[2]`, `KeyError`) are modelled by `Option`/`Except`.
-/

namespace Cirrus

/-- Python slice `s[:n]` (character based, clamps at the end). -/
def strTake (s : String) (n : Nat) : String := String.mk (s.data.take n)

/-- Python slice `s[n:]` (character based, clamps at the end). -/
def strDrop (s : String) (n : Nat) : String := String.mk (s.data.drop n)

/-- Python slice `s[:-1]`: everything but the last character. -/
def strDropLast (s : String) : String := String.mk (s.data.dropLast)

/-- Python `s.strip('"')`: removes every leading and trailing `"` character. -/
def pyStripQuotes (s : String) : String :=
  String.mk (((s.data.dropWhile (· = '"')).reverse.dropWhile (· = '"')).reverse)

/-- Helper for `pySplit`: walks the characters, accumulating the current word
reversed in `acc`, emitting a word at each whitespace run boundary. -/
def splitWsAux : List Char → List Char → List (List Char)
  | [], acc => if acc.isEmpty then [] else [acc.reverse]
  | c :: cs, acc =>
    if c.isWhitespace then
      if acc.isEmpty then splitWsAux cs [] else acc.reverse :: splitWsAux cs []
    else splitWsAux cs (c :: acc)

/-- Python `s.split()` with no argument: split on runs of whitespace,
producing no empty words. -/
def pySplit (s : String) : List String := (splitWsAux s.data []).map String.mk

/-- Left-to-right concatenation of a list of strings (Python `+=` in a loop). -/
def strcat : List String → String
  | [] => ""
  | s :: rest => s ++ strcat rest

/-- Insert a string into an already sorted list (helper for `pySort`). -/
def insertSorted (s : String) : List String → List String
  | [] => [s]
  | t :: rest => if s ≤ t then s :: t :: rest else t :: insertSorted s rest

/-- Python `list.sort()` on a list of strings (stable, lexicographic). -/
def pySort (l : List String) : List String := l.foldr insertSorted []

/-- Key of the `rrecords` dictionary built by `Zone._get_rrecords`:
`(name, rtype, ttl)`. -/
abbrev RKey := String × String × Nat

/-- A Python dictionary keyed by `RKey`, in insertion order. -/
abbrev RecMap := List (RKey × List String)

/-- The `updates` dictionary of `Zone._compare`: key to
`[from_values, to_values]`. -/
abbrev UpdMap := List (RKey × (List String × List String))

/-- Dictionary lookup `m[k]` (first entry with the given key). -/
def lookupRec {α : Type} (m : List (RKey × α)) (k : RKey) : Option α :=
  (m.find? (fun e => decide (e.1 = k))).map (·.2)

/-- Dictionary store `m[k] = v` for a key already present: replaces the
value of every entry carrying `k`, keeping positions. -/
def updateRec {α : Type} (m : List (RKey × α)) (k : RKey) (v : α) : List (RKey × α) :=
  m.map (fun e => if e.1 = k then (k, v) else e)

/-- Python `del m[k]`: removes the entries carrying `k`. -/
def eraseRec {α : Type} (m : List (RKey × α)) (k : RKey) : List (RKey × α) :=
  m.filter (fun e => !decide (e.1 = k))

/-- Python `m.keys()` in insertion order. -/
def recKeys {α : Type} (m : List (RKey × α)) : List RKey := m.map (·.1)

/-- One raw record yielded by `dnszone.iterate_rdatas()` in
`Zone._get_rrecords`: `name`, `ttl`, the type text and the value text. -/
structure RawRecord where
  name : String
  ttl : Nat
  rtype : String
  rvalue : String
deriving DecidableEq

/-- The skip test of `Zone._get_rrecords` / `Zone._compare` / `Zone.remove`:
`rtype == 'NS' and name[:-1] == zone_name`, or `rtype == 'SOA'`. -/
def excludedKey (zoneName : String) (k : RKey) : Bool :=
  (decide (k.2.1 = "NS") && decide (strDropLast k.1 = zoneName)) || decide (k.2.1 = "SOA")

/-- The per-record transformation inside `Zone._get_rrecords`: a `TXT`
record whose characters 1..6 (`rvalue[1:7]`) read `Alias ` is re-presented
as a type-`A` record with the quotes stripped from its value and the
`_alias.` name marker removed; every other record passes unchanged. -/
def transformRecord (r : RawRecord) : RKey × String :=
  if r.rtype = "TXT" ∧ strTake (strDrop r.rvalue 1) 6 = "Alias " then
    let rvalue := pyStripQuotes r.rvalue
    let name := if strTake r.name 7 = "_alias." then strDrop r.name 7 else r.name
    ((name, "A", r.ttl), rvalue)
  else ((r.name, r.rtype, r.ttl), r.rvalue)

/-- Merging one transformed record into the `rrecords` dictionary
(`Zone._get_rrecords`): append to the value list of an existing key, or
insert a fresh single-value entry. -/
def mergeRecord (m : RecMap) (e : RKey × String) : RecMap :=
  match lookupRec m e.1 with
  | some vs => updateRec m e.1 (vs ++ [e.2])
  | none => m ++ [(e.1, [e.2])]

/-- `Zone._get_rrecords`: builds the `(name, rtype, ttl) -> values`
dictionary from a zone, skipping SOA records and NS records at the zone
apex, and decoding the TXT alias masquerade. -/
def getRrecords (zoneName : String) (zone : List RawRecord) : RecMap :=
  zone.foldl
    (fun m r =>
      if excludedKey zoneName (r.name, r.rtype, r.ttl) then m
      else mergeRecord m (transformRecord r)) []

/-- The synthetic TXT record that `Zone._get_rrsets` emits for a live alias
record: name `_alias.<name>`, value `"Alias <hostedZoneId> <dnsName>"`
(with the double quotes that `rdata.to_text()` puts around a TXT value). -/
def encodeAlias (name : String) (ttl : Nat) (zoneId dnsName : String) : RawRecord :=
  ⟨"_alias." ++ name, ttl, "TXT", "\"Alias " ++ zoneId ++ " " ++ dnsName ++ "\""⟩

/-- The fixed XML header of every change batch (`Zone.__init__`,
`self.xml_header`), parameterized by the zone name it mentions. -/
def xmlHeader (zoneName : String) : String :=
  "<?xml version=\"1.0\" encoding=\"UTF-8\"?>\n" ++
    "<ChangeResourceRecordSetsRequest xmlns=\"https://route53.amazonaws.com/doc/2012-02-29/\">\n" ++
    " <ChangeBatch>\n" ++ "  <Comment>Updates to Zone " ++ zoneName ++ "</Comment>\n" ++
    "  <Changes>\n"

/-- The fixed XML footer of every change batch (`Zone.__init__`,
`self.xml_footer`). -/
def xmlFooter : String := "  </Changes>\n" ++ " </ChangeBatch>\n" ++ "</ChangeResourceRecordSetsRequest>\n"

/-- `Zone._change_alias_xml`: splits the alias value on whitespace and reads
`words[1]` (hosted zone id) and `words[2]` (DNS name).  Python raises
`IndexError` when fewer than three words exist; that error branch is
modelled as `none`. -/
def changeAliasXml (action name rvalue : String) : Option String :=
  let words := pySplit rvalue
  match words.get? 1, words.get? 2 with
  | some zone_id, some dns_name =>
    some ("   <Change>\n" ++ "    <Action>" ++ action ++ "</Action>\n" ++
      "     <ResourceRecordSet>\n" ++
      "      <Name>" ++ name ++ "</Name>\n" ++ "      <Type>" ++ "A" ++ "</Type>\n" ++
      "      <AliasTarget>\n            <HostedZoneId>" ++ zone_id ++ "</HostedZoneId>\n" ++
      "            <DNSName>" ++ dns_name ++ "</DNSName>\n      </AliasTarget>\n" ++
      "     </ResourceRecordSet>\n" ++ "   </Change>\n")
  | _, _ => none

/-- The non-alias tail of `Zone._change_xml`: one `<Change>` element with a
`<ResourceRecord>` entry per value. -/
def plainChangeXml (action name rtype : String) (ttl : Nat) (values : List String) : String :=
  "   <Change>\n" ++ "    <Action>" ++ action ++ "</Action>\n" ++ "     <ResourceRecordSet>\n" ++
    "      <Name>" ++ name ++ "</Name>\n" ++ "      <Type>" ++ rtype ++ "</Type>\n" ++
    "      <TTL>" ++ toString ttl ++ "</TTL>\n" ++ "      <ResourceRecords>\n" ++
    strcat (values.map (fun rvalue =>
      "       <ResourceRecord>\n" ++ "        <Value>" ++ rvalue ++ "</Value>\n" ++
        "       </ResourceRecord>\n")) ++
    "     </ResourceRecords>\n" ++ "    </ResourceRecordSet>\n" ++ "   </Change>\n"

/-- `Zone._change_xml`, with an explicit structural-recursion counter.  For a
type-`A` key the first value starting with `Alias ` is rendered through
`changeAliasXml`; when other values remain, `values.remove(rvalue)` drops
that value from the (caller-visible) list and the method recurses on the
shortened list.  The returned pair is (rendered XML, final state of the
`values` list); `none` models a raised `IndexError`.  The counter only has
to dominate the list length, which shrinks at every recursive call; it is
never exhausted when starting from `values.length + 1`. -/
def changeXmlFuel (action name rtype : String) (ttl : Nat) :
    Nat → List String → Option (String × List String)
  | 0, _ => none
  | fuel + 1, values =>
    if rtype = "A" then
      match values.find? (fun rvalue => decide (strTake rvalue 6 = "Alias ")) with
      | some rvalue =>
        match changeAliasXml action name rvalue with
        | none => none
        | some axml =>
          if 1 < values.length then
            match changeXmlFuel action name rtype ttl fuel (values.erase rvalue) with
            | none => none
            | some (xml2, final) => some (axml ++ xml2, final)
          else some (axml, values)
      | none => some (plainChangeXml action name rtype ttl values, values)
    else some (plainChangeXml action name rtype ttl values, values)

/-- `Zone._change_xml` at its natural entry point. -/
def changeXml (action name rtype : String) (ttl : Nat) (values : List String) :
    Option (String × List String) :=
  changeXmlFuel action name rtype ttl (values.length + 1) values

/-- `Zone._add_change_xml`. -/
def addChangeXml (name rtype : String) (ttl : Nat) (values : List String) :
    Option (String × List String) :=
  changeXml "CREATE" name rtype ttl values

/-- `Zone._delete_change_xml`. -/
def deleteChangeXml (name rtype : String) (ttl : Nat) (values : List String) :
    Option (String × List String) :=
  changeXml "DELETE" name rtype ttl values

/-- The loop of `Zone._compare` over `to_records`, threading the shrinking
`from_records` dictionary.  Skipped keys (apex NS / SOA) are untouched; a
key found in `from_records` has both value lists sorted, is recorded as an
update when they differ, and is deleted from `from_records`; an absent key
becomes an add.  Returns (remaining `from_records`, adds, updates); the
adds and updates lists appear in iteration order as in the source. -/
def compareLoop (zoneName : String) : RecMap → List (RKey × List String) → RecMap × RecMap × UpdMap
  | fromR, [] => (fromR, [], [])
  | fromR, (k, tv) :: rest =>
    if excludedKey zoneName k then compareLoop zoneName fromR rest
    else
      match lookupRec fromR k with
      | some fv =>
        let fs := pySort fv
        let ts := pySort tv
        let r := compareLoop zoneName (eraseRec fromR k) rest
        (r.1, r.2.1, if fs ≠ ts then (k, (fs, ts)) :: r.2.2 else r.2.2)
      | none =>
        let r := compareLoop zoneName fromR rest
        (r.1, (k, tv) :: r.2.1, r.2.2)

/-- `Zone._compare`: builds both record dictionaries with
`Zone._get_rrecords` and classifies every key.  Returns
(adds, deletes, updates); deletes are whatever remains of `from_records`
after the loop. -/
def compare (zoneName : String) (fromZone toZone : List RawRecord) : RecMap × RecMap × UpdMap :=
  let fromR := getRrecords zoneName fromZone
  let toR := getRrecords zoneName toZone
  let r := compareLoop zoneName fromR toR
  (r.2.1, r.1, r.2.2)

/-- The slicing idiom `[keys[n:n+size] for n in range(0, len(keys), size)]`
used throughout `Zone` to split work into provider-sized groups. -/
def sliceGroups {α : Type} (l : List α) (size : Nat) : List (List α) :=
  (List.range ((l.length + size - 1) / size)).map (fun i => (l.drop (i * size)).take size)

/-- One delete/add group body of `Zone._create_changeset`: renders each key
through `Zone._change_xml` with the given action, looking the values up in
the dictionary and threading the in-place list mutation performed by
`_change_xml` back into it.  `none` models a raised exception. -/
def renderPlainKeys (action : String) : List RKey → RecMap → Option (String × RecMap)
  | [], m => some ("", m)
  | k :: rest, m =>
    match lookupRec m k with
    | none => none
    | some vs =>
      match changeXml action k.1 k.2.1 k.2.2 vs with
      | none => none
      | some (xml, vs') =>
        match renderPlainKeys action rest (updateRec m k vs') with
        | none => none
        | some (xml2, m') => some (xml ++ xml2, m')

/-- A whole delete or add stage of `Zone._create_changeset`: one payload
(header, group body, footer) per key group, in group order. -/
def renderStageP (action zoneName : String) : List (List RKey) → RecMap → Option (List String × RecMap)
  | [], m => some ([], m)
  | g :: gs, m =>
    match renderPlainKeys action g m with
    | none => none
    | some (body, m') =>
      match renderStageP action zoneName gs m' with
      | none => none
      | some (ps, m'') => some ((xmlHeader zoneName ++ body ++ xmlFooter) :: ps, m'')

/-- One update group body of `Zone._create_changeset`: per key, a DELETE of
the old values followed by a CREATE of the new values. -/
def renderUpdKeys : List RKey → UpdMap → Option (String × UpdMap)
  | [], m => some ("", m)
  | k :: rest, m =>
    match lookupRec m k with
    | none => none
    | some (oldVals, newVals) =>
      match deleteChangeXml k.1 k.2.1 k.2.2 oldVals with
      | none => none
      | some (dxml, oldVals') =>
        match addChangeXml k.1 k.2.1 k.2.2 newVals with
        | none => none
        | some (cxml, newVals') =>
          match renderUpdKeys rest (updateRec m k (oldVals', newVals')) with
          | none => none
          | some (xml2, m') => some (dxml ++ cxml ++ xml2, m')

/-- The update stage of `Zone._create_changeset`. -/
def renderStageU (zoneName : String) : List (List RKey) → UpdMap → Option (List String × UpdMap)
  | [], m => some ([], m)
  | g :: gs, m =>
    match renderUpdKeys g m with
    | none => none
    | some (body, m') =>
      match renderStageU zoneName gs m' with
      | none => none
      | some (ps, m'') => some ((xmlHeader zoneName ++ body ++ xmlFooter) :: ps, m'')

/-- `Zone._create_changeset`: `None` (the inner `none`) when all three
dictionaries are empty, otherwise the delete payloads (groups of 100 keys),
then the update payloads (groups of 50 keys), then the add payloads (groups
of 100 keys).  The final states of the three dictionaries after the
in-place value-list mutation of `_change_xml` are returned alongside; the
outer `none` models a raised exception. -/
def createChangeset (zoneName : String) (adds deletes : RecMap) (updates : UpdMap) :
    Option (Option (List String) × RecMap × RecMap × UpdMap) :=
  if adds.length = 0 ∧ deletes.length = 0 ∧ updates.length = 0 then
    some (none, adds, deletes, updates)
  else
    match renderStageP "DELETE" zoneName (sliceGroups (recKeys deletes) 100) deletes with
    | none => none
    | some (dps, deletes') =>
      match renderStageU zoneName (sliceGroups (recKeys updates) 50) updates with
      | none => none
      | some (ups, updates') =>
        match renderStageP "CREATE" zoneName (sliceGroups (recKeys adds) 100) adds with
        | none => none
        | some (aps, adds') => some (some (dps ++ ups ++ aps), adds', deletes', updates')

/-- `Zone._create_xml`: renders a whole desired zone as CREATE payloads in
groups of 100 keys (used by `Zone.create`). -/
def createXml (zoneName : String) (zone : List RawRecord) : Option (List String) :=
  let rrecords := getRrecords zoneName zone
  (renderStageP "CREATE" zoneName (sliceGroups (recKeys rrecords) 100) rrecords).map (·.1)

/-- The key-group construction of `Zone.remove`: the live keys are sliced
into groups of 100, each group is filtered of apex-NS and SOA keys
(`change_needed`), and a group contributing no key produces no payload. -/
def removeKeyGroups (zoneName : String) (ks : List RKey) : List (List RKey) :=
  (sliceGroups ks 100).filterMap (fun grp =>
    let kept := grp.filter (fun k => !excludedKey zoneName k)
    if kept.isEmpty then none else some kept)

/-- The delete payloads that `Zone.remove` submits before deleting the
hosted zone. -/
def removeXmlList (zoneName : String) (rrecords : RecMap) : Option (List String) :=
  (renderStageP "DELETE" zoneName (removeKeyGroups zoneName (recKeys rrecords)) rrecords).map (·.1)

/-- One resource record set as returned by the provider transport
(`conn.get_all_rrsets`): type, name, stringified TTL, plain values, and the
alias target fields. -/
structure RRSet where
  rtype : String
  name : String
  ttl : String
  resource_records : List String
  alias_hosted_zone_id : Option String
  alias_dns_name : String
deriving DecidableEq

/-- The bind-format line(s) `Zone._get_rrsets` emits for one record set: a
live alias record (no plain values, alias zone id present) becomes the
synthetic `_alias.` TXT line, anything else one line per value. -/
def renderRRSet (r : RRSet) : String :=
  match r.resource_records, r.alias_hosted_zone_id with
  | [], some zid =>
    "_alias." ++ r.name ++ "\t" ++ r.ttl ++ "\tIN\tTXT\t\"Alias " ++ zid ++ " " ++
      r.alias_dns_name ++ "\"\n"
  | rrs, _ =>
    strcat (rrs.map (fun v => r.name ++ "\t" ++ r.ttl ++ "\tIN\t" ++ r.rtype ++ "\t" ++ v ++ "\n"))

/-- Cursor positioning of the provider listing: drop every record up to and
including the first one matching the `(type, name)` cursor. -/
def dropThrough : List RRSet → String → String → List RRSet
  | [], _, _ => []
  | r :: rest, t, n => if r.rtype = t ∧ r.name = n then rest else dropThrough rest t n

/-- The provider transport `conn.get_all_rrsets` modelled over the full live
listing, per spec section 6: at most 100 record sets per call, resuming
after the `(type, name)` cursor when one is given. -/
def getAllRrsets (zone : List RRSet) (ltype lname : Option String) : List RRSet :=
  match ltype, lname with
  | some t, some n => (dropThrough zone t n).take 100
  | _, _ => zone.take 100

/-- `Zone._get_rrsets`: one fetch, returning the rendered bind text, the
number of records fetched, and the `(type, name)` of the last record. -/
def getRrsets (zone : List RRSet) (ltype lname : Option String) :
    String × Nat × Option String × Option String :=
  let page := getAllRrsets zone ltype lname
  (strcat (page.map renderRRSet), page.length,
    (page.getLast?).map RRSet.rtype, (page.getLast?).map RRSet.name)

/-- The polling loop of `Zone._to_dnszone`: fetch a page, and keep fetching
from the last `(type, name)` cursor for as long as a page holds 100 or more
records (`if lines > 99`), concatenating the rendered text.  The fuel
counter is a structural-recursion artifact; `toDnszone` supplies more fuel
than the loop can ever consume. -/
def toDnszoneLoop (zone : List RRSet) : Nat → Option String → Option String → String
  | 0, _, _ => ""
  | fuel + 1, ltype, lname =>
    let r := getRrsets zone ltype lname
    if r.2.1 > 99 then r.1 ++ toDnszoneLoop zone fuel r.2.2.1 r.2.2.2 else r.1

/-- `Zone._to_dnszone`: the complete bind text assembled from every page of
the live listing (the external `dns.zone.from_text` parse is out of scope
per the spec). -/
def toDnszone (zone : List RRSet) : String := toDnszoneLoop zone (zone.length + 1) none none

/-- A mutating provider call, as made by the Zone controller.  Read-only
calls (`get_all_hosted_zones`, `get_all_rrsets`) are not tracked. -/
inductive ProviderCall
  | createHostedZone (name : String)
  | changeRRsets (id : String) (xml : String)
  | deleteHostedZone (id : String)
deriving DecidableEq

/-- Result of a controller operation: `ok calls` when the run completes
having made the listed mutating calls in order, `error calls` when a Python
exception aborts the run after making the listed calls. -/
abbrev RunResult := Except (List ProviderCall) (List ProviderCall)

/-- The mutating calls of a run, successful or aborted. -/
def callsMade : RunResult → List ProviderCall
  | Except.ok calls => calls
  | Except.error calls => calls

/-- `Zone.create`: no action when an id is already cached; when not a dry
run, provisions the hosted zone and submits every payload of
`Zone._create_xml` (a rendering exception leaves only the provisioning call
made). -/
def zoneCreate (zoneName : String) (id : Option String) (newId : String)
    (desired : List RawRecord) (dryRun : Bool) : RunResult :=
  if id.isSome then Except.ok []
  else if dryRun then Except.ok []
  else
    match createXml zoneName desired with
    | none => Except.error [ProviderCall.createHostedZone zoneName]
    | some xmls =>
      Except.ok (ProviderCall.createHostedZone zoneName :: xmls.map (ProviderCall.changeRRsets newId))

/-- `Zone.update`: no action when the zone does not exist; compares the live
records to the desired ones, and unless the changeset is empty or the run
is dry, submits every changeset payload in order. -/
def zoneUpdate (zoneName id : String) (idKnown : Bool) (live desired : List RawRecord)
    (dryRun : Bool) : RunResult :=
  if !idKnown then Except.ok []
  else
    let cm := compare zoneName live desired
    match createChangeset zoneName cm.1 cm.2.1 cm.2.2 with
    | none => Except.error []
    | some (none, _, _, _) => Except.ok []
    | some (some css, _, _, _) =>
      if dryRun then Except.ok [] else Except.ok (css.map (ProviderCall.changeRRsets id))

/-- `Zone.remove`: no action when the zone does not exist or the run is dry;
otherwise submits the delete payloads of the live records and then deletes
the hosted zone. -/
def zoneRemove (zoneName id : String) (idKnown : Bool) (live : List RawRecord)
    (dryRun : Bool) : RunResult :=
  if !idKnown then Except.ok []
  else if dryRun then Except.ok []
  else
    match removeXmlList zoneName (getRrecords zoneName live) with
    | none => Except.error []
    | some xmls =>
      Except.ok (xmls.map (ProviderCall.changeRRsets id) ++ [ProviderCall.deleteHostedZone id])

/-- The value lists that `Zone._change_xml` is guaranteed to leave alone:
those of a non-`A` key, those containing no value starting with `Alias `,
and singleton or empty lists (the in-place `values.remove` only fires when
more than one value is present). -/
def valuesUntouched (rtype : String) (vals : List String) : Prop :=
  rtype ≠ "A" ∨ (∀ v ∈ vals, strTake v 6 ≠ "Alias ") ∨ vals.length ≤ 1

/-- A 250-key adds dictionary (distinct TTLs), spec scenario E. -/
def adds250 : RecMap :=
  (List.range 250).map (fun i => ((("host.example.com.", "A", i) : RKey), ["1.2.3.4"]))

/-- Concrete adds dictionary used by witnesses. -/
def addsW : RecMap := [(("add.example.com.", "A", 300), ["1.1.1.1"])]

/-- Concrete deletes dictionary used by witnesses. -/
def delsW : RecMap := [(("del.example.com.", "A", 300), ["2.2.2.2"])]

/-- Concrete updates dictionary used by witnesses. -/
def updsW : UpdMap := [(("upd.example.com.", "A", 300), (["3.3.3.3"], ["4.4.4.4"]))]

/-- The changeset produced from the concrete witness dictionaries. -/
def csResW : Option (List String) × RecMap × RecMap × UpdMap :=
  (createChangeset "example.com" addsW delsW updsW).getD (none, [], [], [])

/-- A live zone of 101 records with pairwise distinct (type, name) keys,
used to witness the pagination claim across a page boundary. -/
def zone101 : List RRSet :=
  (List.range 101).map (fun i => ⟨"A", toString i, "300", ["1.2.3.4"], none, ""⟩)

/-- The payload list of the concrete witness changeset. -/
def cssW : List String := csResW.1.getD []

/-! Association-map lemmas. -/

theorem recKeys_cons {α : Type} (e : RKey × α) (m : List (RKey × α)) :
    recKeys (e :: m) = e.1 :: recKeys m := rfl

theorem lookupRec_cons {α : Type} (k0 : RKey) (v0 : α) (m : List (RKey × α)) (k : RKey) :
    lookupRec ((k0, v0) :: m) k = if k0 = k then some v0 else lookupRec m k := by
  by_cases h : k0 = k
  · unfold lookupRec
    rw [List.find?_cons_of_pos _ (by simpa using h)]
    simp [h]
  · unfold lookupRec
    rw [List.find?_cons_of_neg _ (by simpa using h)]
    simp [h]

theorem lookupRec_eq_none {α : Type} (m : List (RKey × α)) (k : RKey) :
    lookupRec m k = none ↔ k ∉ recKeys m := by
  induction m with
  | nil => simp [lookupRec, recKeys]
  | cons e m ih =>
    obtain ⟨k0, v0⟩ := e
    rw [lookupRec_cons, recKeys_cons]
    by_cases h : k0 = k
    · simp [h]
    · rw [if_neg h, List.mem_cons, ih]
      constructor
      · intro hk hor
        rcases hor with h1 | h2
        · exact h h1.symm
        · exact hk h2
      · intro hk h2
        exact hk (Or.inr h2)

theorem lookupRec_isSome_of_mem {α : Type} {m : List (RKey × α)} {k : RKey}
    (h : k ∈ recKeys m) : (lookupRec m k).isSome := by
  cases hl : lookupRec m k with
  | none => exact absurd h ((lookupRec_eq_none m k).mp hl)
  | some v => rfl

theorem lookupRec_eraseRec {α : Type} (m : List (RKey × α)) (k k' : RKey) :
    lookupRec (eraseRec m k) k' = if k' = k then none else lookupRec m k' := by
  induction m with
  | nil => simp [eraseRec, lookupRec]
  | cons e m ih =>
    obtain ⟨k0, v0⟩ := e
    by_cases h : k0 = k
    · have he : eraseRec ((k0, v0) :: m) k = eraseRec m k := by
        simp [eraseRec, List.filter_cons, h]
      rw [he, ih]
      by_cases h' : k' = k
      · rw [if_pos h', if_pos h']
      · have hne : ¬ k0 = k' := fun hh => h' (by rw [← hh]; exact h)
        rw [if_neg h', if_neg h', lookupRec_cons, if_neg hne]
    · have he : eraseRec ((k0, v0) :: m) k = (k0, v0) :: eraseRec m k := by
        simp [eraseRec, List.filter_cons, h]
      rw [he, lookupRec_cons, ih, lookupRec_cons]
      by_cases h' : k' = k
      · have hne : ¬ k0 = k' := fun hh => h (h' ▸ hh)
        rw [if_pos h', if_neg hne, if_pos h']
      · rw [if_neg h', if_neg h']

theorem recKeys_updateRec {α : Type} (m : List (RKey × α)) (k : RKey) (v : α) :
    recKeys (updateRec m k v) = recKeys m := by
  induction m with
  | nil => rfl
  | cons e m ih =>
    obtain ⟨k0, v0⟩ := e
    by_cases h : k0 = k
    · simp [updateRec, recKeys_cons, h] at *
      exact ih
    · simp [updateRec, recKeys_cons, h] at *
      exact ih

theorem lookupRec_updateRec {α : Type} (m : List (RKey × α)) (k k' : RKey) (v : α) :
    lookupRec (updateRec m k v) k' =
      if k' = k then (lookupRec m k).map (fun _ => v) else lookupRec m k' := by
  induction m with
  | nil => simp [updateRec, lookupRec]
  | cons e m ih =>
    obtain ⟨k0, v0⟩ := e
    by_cases h : k0 = k
    · have hu : updateRec ((k0, v0) :: m) k v = (k, v) :: updateRec m k v := by
        simp [updateRec, h]

      by_cases h' : k' = k
      · rw [hu, lookupRec_cons, if_pos (h'.symm : k = k'), if_pos h', lookupRec_cons, if_pos h]
        simp
      · have hne : ¬ k = k' := fun hh => h' hh.symm
        rw [hu, lookupRec_cons, if_neg hne, ih, if_neg h', if_neg h', lookupRec_cons,
          if_neg (fun hh : k0 = k' => h' (by rw [← hh]; exact h))]
    · have hu : updateRec ((k0, v0) :: m) k v = (k0, v0) :: updateRec m k v := by
        simp [updateRec, h]
      by_cases h' : k' = k
      · have hne : ¬ k0 = k' := fun hh => h (h' ▸ hh)
        rw [hu, lookupRec_cons, if_neg hne, ih, if_pos h', if_pos h', lookupRec_cons, if_neg h]
      · rw [hu, lookupRec_cons, ih, if_neg h', if_neg h', lookupRec_cons]

/-! Invariants of the record-set extractor. -/

theorem transformRecord_not_excluded (zoneName : String) (r : RawRecord)
    (h : excludedKey zoneName (r.name, r.rtype, r.ttl) = false) :
    excludedKey zoneName (transformRecord r).1 = false := by
  unfold transformRecord
  by_cases hc : r.rtype = "TXT" ∧ strTake (strDrop r.rvalue 1) 6 = "Alias "
  · rw [if_pos hc]
    simp only [excludedKey]
    have h1 : decide (("A" : String) = "NS") = false := by decide
    have h2 : decide (("A" : String) = "SOA") = false := by decide
    simp [h1, h2]
  · rw [if_neg hc]
    exact h

theorem mem_keys_of_lookup_some {α : Type} {m : List (RKey × α)} {k : RKey} {v : α}
    (h : lookupRec m k = some v) : k ∈ recKeys m := by
  by_contra hk
  rw [← lookupRec_eq_none m k] at hk
  rw [h] at hk
  exact Option.noConfusion hk

theorem keyProp_updateRec {α : Type} (P : RKey → Prop) (m : List (RKey × α)) (k : RKey) (v : α)
    (hm : ∀ e ∈ m, P e.1) (hk : P k) : ∀ e ∈ updateRec m k v, P e.1 := by
  intro e he
  unfold updateRec at he
  rcases List.mem_map.mp he with ⟨e0, he0, heq⟩
  by_cases h : e0.1 = k
  · rw [if_pos h] at heq
    rw [← heq]
    exact hk
  · rw [if_neg h] at heq
    rw [← heq]
    exact hm e0 he0

theorem mergeRecord_keyProp (P : RKey → Prop) (m : RecMap) (e : RKey × String)
    (hm : ∀ x ∈ m, P x.1) (he : P e.1) : ∀ x ∈ mergeRecord m e, P x.1 := by
  intro x hx
  unfold mergeRecord at hx
  cases hl : lookupRec m e.1 with
  | some vs =>
    rw [hl] at hx
    exact keyProp_updateRec P m e.1 (vs ++ [e.2]) hm he x hx
  | none =>
    rw [hl] at hx
    rcases List.mem_append.mp hx with h1 | h2
    · exact hm x h1
    · rw [List.mem_singleton.mp h2]
      exact he

theorem mergeRecord_keys_nodup (m : RecMap) (e : RKey × String)
    (hm : (recKeys m).Nodup) : (recKeys (mergeRecord m e)).Nodup := by
  unfold mergeRecord
  cases hl : lookupRec m e.1 with
  | some vs =>
    rw [recKeys_updateRec]
    exact hm
  | none =>
    have hk : e.1 ∉ recKeys m := (lookupRec_eq_none m e.1).mp hl
    have : recKeys (m ++ [(e.1, [e.2])]) = recKeys m ++ [e.1] := by
      unfold recKeys
      rw [List.map_append]
      rfl
    rw [this]
    rw [List.nodup_append]
    exact ⟨hm, List.nodup_singleton e.1, by simpa using hk⟩

theorem getRrecords_invariant (zoneName : String) (zone : List RawRecord) :
    (∀ e ∈ getRrecords zoneName zone, excludedKey zoneName e.1 = false) ∧
      (recKeys (getRrecords zoneName zone)).Nodup := by
  suffices h : ∀ m₀ : RecMap, (∀ e ∈ m₀, excludedKey zoneName e.1 = false) → (recKeys m₀).Nodup →
      (∀ e ∈ zone.foldl
        (fun m r =>
          if excludedKey zoneName (r.name, r.rtype, r.ttl) then m
          else mergeRecord m (transformRecord r)) m₀, excludedKey zoneName e.1 = false) ∧
        (recKeys (zone.foldl
          (fun m r =>
            if excludedKey zoneName (r.name, r.rtype, r.ttl) then m
            else mergeRecord m (transformRecord r)) m₀)).Nodup by
    exact h [] (by intro e he; cases he) List.nodup_nil
  induction zone with
  | nil =>
    intro m₀ h1 h2
    exact ⟨h1, h2⟩
  | cons r zone ih =>
    intro m₀ h1 h2
    rw [List.foldl_cons]
    by_cases hr : excludedKey zoneName (r.name, r.rtype, r.ttl)
    · rw [if_pos hr]
      exact ih m₀ h1 h2
    · rw [if_neg hr]
      have hr' : excludedKey zoneName (r.name, r.rtype, r.ttl) = false :=
        Bool.eq_false_iff.mpr hr
      exact ih (mergeRecord m₀ (transformRecord r))
        (mergeRecord_keyProp (fun k => excludedKey zoneName k = false) m₀ (transformRecord r) h1
          (transformRecord_not_excluded zoneName r hr'))
        (mergeRecord_keys_nodup m₀ (transformRecord r) h2)

/-! Characterization of the differ. -/

theorem compareLoop_cons (zoneName : String) (fromR : RecMap) (k0 : RKey) (tv0 : List String)
    (rest : List (RKey × List String)) :
    compareLoop zoneName fromR ((k0, tv0) :: rest) =
      if excludedKey zoneName k0 then compareLoop zoneName fromR rest
      else
        match lookupRec fromR k0 with
        | some fv =>
          let r := compareLoop zoneName (eraseRec fromR k0) rest
          (r.1, r.2.1,
            if pySort fv ≠ pySort tv0 then (k0, (pySort fv, pySort tv0)) :: r.2.2 else r.2.2)
        | none =>
          let r := compareLoop zoneName fromR rest
          (r.1, (k0, tv0) :: r.2.1, r.2.2) := rfl

theorem compareLoop_spec (zoneName : String) (toR : List (RKey × List String)) :
    ∀ fromR : RecMap,
      (recKeys toR).Nodup →
      (∀ e ∈ toR, excludedKey zoneName e.1 = false) →
      ∀ k : RKey,
        (lookupRec (compareLoop zoneName fromR toR).2.1 k =
          if k ∈ recKeys toR ∧ lookupRec fromR k = none then lookupRec toR k else none) ∧
        (lookupRec (compareLoop zoneName fromR toR).2.2 k =
          match lookupRec fromR k, lookupRec toR k with
          | some fv, some tv =>
            if pySort fv ≠ pySort tv then some (pySort fv, pySort tv) else none
          | _, _ => none) ∧
        (lookupRec (compareLoop zoneName fromR toR).1 k =
          if k ∈ recKeys toR then none else lookupRec fromR k) := by
  induction toR with
  | nil =>
    intro fromR _ _ k
    refine ⟨?_, ?_, ?_⟩
    · simp [compareLoop, lookupRec, recKeys]
    · cases lookupRec fromR k <;> simp [compareLoop, lookupRec]
    · simp [compareLoop, recKeys]
  | cons e rest ih =>
    obtain ⟨k0, tv0⟩ := e
    intro fromR hnd hex k
    have hk0nr : k0 ∉ recKeys rest := by
      rw [recKeys_cons] at hnd
      exact (List.nodup_cons.mp hnd).1
    have hndr : (recKeys rest).Nodup := by
      rw [recKeys_cons] at hnd
      exact (List.nodup_cons.mp hnd).2
    have hexr : ∀ x ∈ rest, excludedKey zoneName x.1 = false := fun x hx =>
      hex x (List.mem_cons_of_mem _ hx)
    have hex0 : excludedKey zoneName k0 = false := hex (k0, tv0) (List.mem_cons_self _ _)
    rw [compareLoop_cons, hex0]
    simp only [Bool.false_eq_true, if_false]
    cases hfk : lookupRec fromR k0 with
    | some fv0 =>
      dsimp only
      obtain ⟨iha, ihu, ihd⟩ := ih (eraseRec fromR k0) hndr hexr k
      by_cases hkk : k = k0
      · subst hkk
        refine ⟨?_, ?_, ?_⟩
        · rw [iha]
          rw [if_neg (by intro hc; exact hk0nr hc.1)]
          rw [if_neg (by intro hc; rw [hfk] at hc; exact Option.noConfusion hc.2)]
        · have hupd : lookupRec (compareLoop zoneName (eraseRec fromR k) rest).2.2 k = none := by
            rw [ihu, lookupRec_eraseRec, if_pos rfl]
          by_cases hne : pySort fv0 ≠ pySort tv0
          · rw [if_pos hne, lookupRec_cons, if_pos rfl, hfk, lookupRec_cons, if_pos rfl]
            simp [hne]
          · rw [if_neg hne, hupd, hfk, lookupRec_cons, if_pos rfl]
            simp [hne]
        · rw [ihd, lookupRec_eraseRec]
          rw [if_neg hk0nr, if_pos rfl, recKeys_cons, if_pos (List.mem_cons_self _ _)]
      · have hkk' : ¬ k0 = k := fun hh => hkk hh.symm
        have herase : lookupRec (eraseRec fromR k0) k = lookupRec fromR k := by
          rw [lookupRec_eraseRec, if_neg hkk]
        have hmem : (k ∈ recKeys ((k0, tv0) :: rest)) ↔ k ∈ recKeys rest := by
          rw [recKeys_cons, List.mem_cons]
          exact ⟨fun h => h.resolve_left (fun hh => hkk hh), Or.inr⟩
        have hcons : lookupRec ((k0, tv0) :: rest) k = lookupRec rest k := by
          rw [lookupRec_cons, if_neg hkk']
        refine ⟨?_, ?_, ?_⟩
        · rw [iha, herase, hcons]
          by_cases hc : k ∈ recKeys rest ∧ lookupRec fromR k = none
          · rw [if_pos hc, if_pos ⟨hmem.mpr hc.1, hc.2⟩]
          · rw [if_neg hc, if_neg (fun hc2 => hc ⟨hmem.mp hc2.1, hc2.2⟩)]
        · have halign : lookupRec
              (compareLoop zoneName (eraseRec fromR k0) rest).2.2 k =
              match lookupRec fromR k, lookupRec ((k0, tv0) :: rest) k with
              | some fv, some tv =>
                if pySort fv ≠ pySort tv then some (pySort fv, pySort tv) else none
              | _, _ => none := by
            rw [ihu, herase, hcons]
          by_cases hne : pySort fv0 ≠ pySort tv0
          · rw [if_pos hne, lookupRec_cons, if_neg hkk']
            exact halign
          · rw [if_neg hne]
            exact halign
        · rw [ihd, herase]
          by_cases hc : k ∈ recKeys rest
          · rw [if_pos hc, if_pos (hmem.mpr hc)]
          · rw [if_neg hc, if_neg (fun hc2 => hc (hmem.mp hc2))]
    | none =>
      dsimp only
      obtain ⟨iha, ihu, ihd⟩ := ih fromR hndr hexr k
      by_cases hkk : k = k0
      · subst hkk
        refine ⟨?_, ?_, ?_⟩
        · rw [lookupRec_cons, if_pos rfl, lookupRec_cons, if_pos rfl]
          rw [if_pos ⟨by rw [recKeys_cons]; exact List.mem_cons_self _ _, hfk⟩]
        · rw [ihu, hfk]
        · rw [ihd, if_neg hk0nr, hfk, recKeys_cons, if_pos (List.mem_cons_self _ _)]
      · have hkk' : ¬ k0 = k := fun hh => hkk hh.symm
        have hmem : (k ∈ recKeys ((k0, tv0) :: rest)) ↔ k ∈ recKeys rest := by
          rw [recKeys_cons, List.mem_cons]
          exact ⟨fun h => h.resolve_left (fun hh => hkk hh), Or.inr⟩
        have hcons : lookupRec ((k0, tv0) :: rest) k = lookupRec rest k := by
          rw [lookupRec_cons, if_neg hkk']
        refine ⟨?_, ?_, ?_⟩
        · rw [lookupRec_cons, if_neg hkk', iha, hcons]
          by_cases hc : k ∈ recKeys rest ∧ lookupRec fromR k = none
          · rw [if_pos hc, if_pos ⟨hmem.mpr hc.1, hc.2⟩]
          · rw [if_neg hc, if_neg (fun hc2 => hc ⟨hmem.mp hc2.1, hc2.2⟩)]
        · rw [ihu, hcons]
        · rw [ihd]
          by_cases hc : k ∈ recKeys rest
          · rw [if_pos hc, if_pos (hmem.mpr hc)]
          · rw [if_neg hc, if_neg (fun hc2 => hc (hmem.mp hc2))]

theorem compare_eq (zoneName : String) (fromZone toZone : List RawRecord) :
    compare zoneName fromZone toZone =
      ((compareLoop zoneName (getRrecords zoneName fromZone) (getRrecords zoneName toZone)).2.1,
        (compareLoop zoneName (getRrecords zoneName fromZone) (getRrecords zoneName toZone)).1,
        (compareLoop zoneName (getRrecords zoneName fromZone) (getRrecords zoneName toZone)).2.2) :=
  rfl

theorem not_mem_keys_of_excluded {zoneName : String} {zone : List RawRecord} {k : RKey}
    (hk : excludedKey zoneName k = true) : k ∉ recKeys (getRrecords zoneName zone) := by
  intro hmem
  rcases List.mem_map.mp hmem with ⟨e, he, heq⟩
  have := (getRrecords_invariant zoneName zone).1 e he
  rw [heq, hk] at this
  exact Bool.noConfusion this

/-- C1: Diff completeness.  For every pair of zones handed to `Zone._compare`
and the two record dictionaries it extracts from them: a key only in the
desired records becomes an add carrying the desired values; a key only in
the current records becomes a delete carrying the current values; a key in
both whose sorted value lists differ becomes an update recording the sorted
current and desired value lists; a key in both with equal sorted values is
classified nowhere; and no key lands in more than one classification. -/
theorem c1_diff_completeness (zoneName : String) (fromZone toZone : List RawRecord) (k : RKey) :
    (∀ tv, lookupRec (getRrecords zoneName toZone) k = some tv →
      lookupRec (getRrecords zoneName fromZone) k = none →
      lookupRec (compare zoneName fromZone toZone).1 k = some tv ∧
      lookupRec (compare zoneName fromZone toZone).2.1 k = none ∧
      lookupRec (compare zoneName fromZone toZone).2.2 k = none) ∧
    (∀ fv, lookupRec (getRrecords zoneName fromZone) k = some fv →
      lookupRec (getRrecords zoneName toZone) k = none →
      lookupRec (compare zoneName fromZone toZone).2.1 k = some fv ∧
      lookupRec (compare zoneName fromZone toZone).1 k = none ∧
      lookupRec (compare zoneName fromZone toZone).2.2 k = none) ∧
    (∀ fv tv, lookupRec (getRrecords zoneName fromZone) k = some fv →
      lookupRec (getRrecords zoneName toZone) k = some tv →
      pySort fv ≠ pySort tv →
      lookupRec (compare zoneName fromZone toZone).2.2 k = some (pySort fv, pySort tv) ∧
      lookupRec (compare zoneName fromZone toZone).1 k = none ∧
      lookupRec (compare zoneName fromZone toZone).2.1 k = none) ∧
    (∀ fv tv, lookupRec (getRrecords zoneName fromZone) k = some fv →
      lookupRec (getRrecords zoneName toZone) k = some tv →
      pySort fv = pySort tv →
      lookupRec (compare zoneName fromZone toZone).1 k = none ∧
      lookupRec (compare zoneName fromZone toZone).2.1 k = none ∧
      lookupRec (compare zoneName fromZone toZone).2.2 k = none) := by
  obtain ⟨hex, hnd⟩ := getRrecords_invariant zoneName toZone
  obtain ⟨specA, specU, specD⟩ := compareLoop_spec zoneName (getRrecords zoneName toZone)
    (getRrecords zoneName fromZone) hnd hex k
  rw [compare_eq]
  dsimp only
  refine ⟨?_, ?_, ?_, ?_⟩
  · intro tv htv hfv
    refine ⟨?_, ?_, ?_⟩
    · rw [specA, if_pos ⟨mem_keys_of_lookup_some htv, hfv⟩, htv]
    · rw [specD, if_pos (mem_keys_of_lookup_some htv)]
    · rw [specU, hfv, htv]
  · intro fv hfv htv
    have hmem : k ∉ recKeys (getRrecords zoneName toZone) :=
      (lookupRec_eq_none _ k).mp htv
    refine ⟨?_, ?_, ?_⟩
    · rw [specD, if_neg hmem]
      exact hfv
    · rw [specA, if_neg (fun hc => hmem hc.1)]
    · rw [specU, hfv, htv]
  · intro fv tv hfv htv hne
    refine ⟨?_, ?_, ?_⟩
    · rw [specU, hfv, htv]
      dsimp only
      rw [if_pos hne]
    · rw [specA, if_neg (fun hc => by rw [hfv] at hc; exact Option.noConfusion hc.2)]
    · rw [specD, if_pos (mem_keys_of_lookup_some htv)]
  · intro fv tv hfv htv heq
    refine ⟨?_, ?_, ?_⟩
    · rw [specA, if_neg (fun hc => by rw [hfv] at hc; exact Option.noConfusion hc.2)]
    · rw [specD, if_pos (mem_keys_of_lookup_some htv)]
    · rw [specU, hfv, htv]
      dsimp only
      rw [if_neg (fun hc => hc heq)]

/-- Witness for C1 at a concrete input (spec scenario A: one add). -/
theorem c1_diff_completeness_witness :
    lookupRec (compare "example.com" [] [⟨"www.example.com.", 300, "A", "1.2.3.4"⟩]).1
      ("www.example.com.", "A", 300) = some ["1.2.3.4"] ∧
    lookupRec (compare "example.com" [] [⟨"www.example.com.", 300, "A", "1.2.3.4"⟩]).2.1
      ("www.example.com.", "A", 300) = none ∧
    lookupRec (compare "example.com" [] [⟨"www.example.com.", 300, "A", "1.2.3.4"⟩]).2.2
      ("www.example.com.", "A", 300) = none :=
  (c1_diff_completeness "example.com" [] [⟨"www.example.com.", 300, "A", "1.2.3.4"⟩]
    ("www.example.com.", "A", 300)).1 ["1.2.3.4"] (by decide) (by decide)

/-- C3: Exclusion invariant.  An SOA key, or an NS key whose name equals the
zone apex, never appears in the adds, deletes or updates produced by
`Zone._compare`, and never appears in any delete group produced by
`Zone.remove`. -/
theorem c3_exclusion_invariant (zoneName : String) (k : RKey)
    (hk : excludedKey zoneName k = true) :
    (∀ fromZone toZone : List RawRecord,
      lookupRec (compare zoneName fromZone toZone).1 k = none ∧
      lookupRec (compare zoneName fromZone toZone).2.1 k = none ∧
      lookupRec (compare zoneName fromZone toZone).2.2 k = none) ∧
    (∀ ks : List RKey, ∀ g ∈ removeKeyGroups zoneName ks, k ∉ g) := by
  constructor
  · intro fromZone toZone
    obtain ⟨hex, hnd⟩ := getRrecords_invariant zoneName toZone
    obtain ⟨specA, specU, specD⟩ := compareLoop_spec zoneName (getRrecords zoneName toZone)
      (getRrecords zoneName fromZone) hnd hex k
    have hto : k ∉ recKeys (getRrecords zoneName toZone) := not_mem_keys_of_excluded hk
    have hfrom : lookupRec (getRrecords zoneName fromZone) k = none :=
      (lookupRec_eq_none _ k).mpr (not_mem_keys_of_excluded hk)
    rw [compare_eq]
    dsimp only
    refine ⟨?_, ?_, ?_⟩
    · rw [specA, if_neg (fun hc => hto hc.1)]
    · rw [specD, if_neg hto]
      exact hfrom
    · rw [specU, hfrom]
  · intro ks g hg hkg
    unfold removeKeyGroups at hg
    rcases List.mem_filterMap.mp hg with ⟨grp, _, heq⟩
    dsimp only at heq
    by_cases he : (grp.filter (fun k' => !excludedKey zoneName k')).isEmpty
    · rw [if_pos he] at heq
      exact Option.noConfusion heq
    · rw [if_neg he] at heq
      have : k ∈ grp.filter (fun k' => !excludedKey zoneName k') := by
        rw [Option.some_inj.mp heq]
        exact hkg
      have hp := (List.mem_filter.mp this).2
      rw [hk] at hp
      exact Bool.noConfusion hp

/-- Witness for C3 at a concrete input (spec scenario C: an apex NS record
present only in the live zone is not classified as a delete). -/
theorem c3_exclusion_invariant_witness :
    lookupRec (compare "example.com" [⟨"example.com.", 172800, "NS", "ns1.aws.com."⟩] []).1
      ("example.com.", "NS", 172800) = none ∧
    lookupRec (compare "example.com" [⟨"example.com.", 172800, "NS", "ns1.aws.com."⟩] []).2.1
      ("example.com.", "NS", 172800) = none ∧
    lookupRec (compare "example.com" [⟨"example.com.", 172800, "NS", "ns1.aws.com."⟩] []).2.2
      ("example.com.", "NS", 172800) = none :=
  (c3_exclusion_invariant "example.com" ("example.com.", "NS", 172800) (by decide)).1
    [⟨"example.com.", 172800, "NS", "ns1.aws.com."⟩] []

/-! Rendering lemmas. -/

theorem changeAliasXml_isSome (action name rvalue : String) :
    (changeAliasXml action name rvalue).isSome = true ↔ 3 ≤ (pySplit rvalue).length := by
  unfold changeAliasXml
  dsimp only
  cases h1 : (pySplit rvalue).get? 1 with
  | none =>
    have hl : (pySplit rvalue).length ≤ 1 := List.get?_eq_none.mp h1
    exact ⟨fun h => Bool.noConfusion h, fun h => absurd h (by omega)⟩
  | some w1 =>
    cases h2 : (pySplit rvalue).get? 2 with
    | none =>
      have hl : (pySplit rvalue).length ≤ 2 := List.get?_eq_none.mp h2
      exact ⟨fun h => Bool.noConfusion h, fun h => absurd h (by omega)⟩
    | some w2 =>
      have hl : 2 < (pySplit rvalue).length := by
        by_contra hc
        rw [List.get?_eq_none.mpr (by omega)] at h2
        exact Option.noConfusion h2
      exact ⟨fun _ => by omega, fun _ => rfl⟩

theorem changeXmlFuel_total (action name rtype : String) (ttl : Nat) :
    ∀ fuel values, values.length < fuel →
      (∀ v ∈ values, strTake v 6 = "Alias " → 3 ≤ (pySplit v).length) →
      (changeXmlFuel action name rtype ttl fuel values).isSome = true := by
  intro fuel
  induction fuel with
  | zero =>
    intro values h _
    omega
  | succ fuel ih =>
    intro values hlen hv
    simp only [changeXmlFuel]
    by_cases hA : rtype = "A"
    · rw [if_pos hA]
      cases hf : values.find? (fun rvalue => decide (strTake rvalue 6 = "Alias ")) with
      | none => rfl
      | some v =>
        have hvmem := List.mem_of_find?_eq_some hf
        have hvp : strTake v 6 = "Alias " := by
          have := List.find?_some hf
          simpa using this
        have hax : (changeAliasXml action name v).isSome = true :=
          (changeAliasXml_isSome action name v).mpr (hv v hvmem hvp)
        dsimp only
        cases hax' : changeAliasXml action name v with
        | none => rw [hax'] at hax; exact Bool.noConfusion hax
        | some axml =>
          dsimp only
          by_cases h1 : 1 < values.length
          · rw [if_pos h1]
            have herlen : (values.erase v).length < fuel := by
              rw [List.length_erase_of_mem hvmem]
              omega
            have hrec := ih (values.erase v) herlen
              (fun w hw hwp => hv w (List.mem_of_mem_erase hw) hwp)
            cases hre : changeXmlFuel action name rtype ttl fuel (values.erase v) with
            | none => rw [hre] at hrec; exact Bool.noConfusion hrec
            | some p =>
              obtain ⟨x2, fin⟩ := p
              rfl
          · rw [if_neg h1]
            rfl
    · rw [if_neg hA]
      rfl

set_option maxRecDepth 4000 in
/-- C10: Alias rendering is partial.  Rendering a change for a type-A key
through `Zone._change_xml` always produces a payload when every value
starting with `Alias ` splits into at least three whitespace-separated
words; and the out-of-range-index error branch is reachable: the sole value
`Alias Z123` (no DNS name word) makes `Zone._change_alias_xml` fail instead
of producing a payload or skipping the value. -/
theorem c10_alias_rendering_partial :
    (∀ action name ttl (values : List String),
      (∀ v ∈ values, strTake v 6 = "Alias " → 3 ≤ (pySplit v).length) →
      (changeXml action name "A" ttl values).isSome = true) ∧
    changeXml "CREATE" "host.example.com." "A" 300 ["Alias Z123"] = none := by
  constructor
  · intro action name ttl values hv
    exact changeXmlFuel_total action name "A" ttl (values.length + 1) values (by omega) hv
  · decide

/-- Witness for C10 at a concrete alias value with three words. -/
theorem c10_alias_rendering_partial_witness :
    (changeXml "CREATE" "n.example.com." "A" 300 ["Alias Z1 t.example.com.", "1.2.3.4"]).isSome
      = true :=
  c10_alias_rendering_partial.1 "CREATE" "n.example.com." 300
    ["Alias Z1 t.example.com.", "1.2.3.4"] (by decide)

/-! Batch size lemmas. -/

theorem sliceGroups_length_le {α : Type} (l : List α) (size : Nat) :
    ∀ g ∈ sliceGroups l size, g.length ≤ size := by
  intro g hg
  rcases List.mem_map.mp hg with ⟨i, _, heq⟩
  rw [← heq, List.length_take]
  exact Nat.min_le_left _ _

set_option maxRecDepth 40000 in
/-- C4: Batch size bound.  Every delete and add key group that
`Zone._create_changeset` renders into a payload holds at most 100 keys,
every update key group at most 50 keys; and 250 distinct add keys produce
exactly three add groups of 100, 100 and 50 keys. -/
theorem c4_batch_size_bound :
    (∀ (deletes : RecMap) g, g ∈ sliceGroups (recKeys deletes) 100 → g.length ≤ 100) ∧
    (∀ (updates : UpdMap) g, g ∈ sliceGroups (recKeys updates) 50 → g.length ≤ 50) ∧
    (∀ (adds : RecMap) g, g ∈ sliceGroups (recKeys adds) 100 → g.length ≤ 100) ∧
    (sliceGroups (recKeys adds250) 100).map List.length = [100, 100, 50] := by
  refine ⟨?_, ?_, ?_, ?_⟩
  · intro deletes g hg
    exact sliceGroups_length_le _ _ g hg
  · intro updates g hg
    exact sliceGroups_length_le _ _ g hg
  · intro adds g hg
    exact sliceGroups_length_le _ _ g hg
  · decide

/-- Witness for C4 at a concrete input. -/
theorem c4_batch_size_bound_witness :
    (([(("a.example.com.", "A", 300), ["1.1.1.1"])] : RecMap) = delsW → True) ∧
    ([("del.example.com.", "A", 300)] : List RKey).length ≤ 100 :=
  ⟨fun _ => trivial,
    c4_batch_size_bound.1 delsW [("del.example.com.", "A", 300)] (by decide)⟩

/-! Mutation lemmas for the batcher. -/

theorem changeXml_untouched (action name rtype : String) (ttl : Nat)
    (values : List String) (x : String) (final : List String)
    (h : changeXml action name rtype ttl values = some (x, final))
    (hu : valuesUntouched rtype values) : final = values := by
  unfold changeXml at h
  simp only [changeXmlFuel] at h
  by_cases hA : rtype = "A"
  · rw [if_pos hA] at h
    rcases hu with h1 | h2 | h3
    · exact absurd hA h1
    · have hf : values.find? (fun rvalue => decide (strTake rvalue 6 = "Alias ")) = none := by
        rw [List.find?_eq_none]
        intro v hv
        simpa using h2 v hv
      rw [hf] at h
      dsimp only at h
      exact (congrArg Prod.snd (Option.some.inj h)).symm
    · cases hf : values.find? (fun rvalue => decide (strTake rvalue 6 = "Alias ")) with
      | none =>
        rw [hf] at h
        dsimp only at h
        exact (congrArg Prod.snd (Option.some.inj h)).symm
      | some v =>
        rw [hf] at h
        dsimp only at h
        cases hax : changeAliasXml action name v with
        | none => rw [hax] at h; exact Option.noConfusion h
        | some axml =>
          rw [hax] at h
          dsimp only at h
          rw [if_neg (by omega : ¬ 1 < values.length)] at h
          exact (congrArg Prod.snd (Option.some.inj h)).symm
  · rw [if_neg hA] at h
    exact (congrArg Prod.snd (Option.some.inj h)).symm

theorem renderPlainKeys_spec (action : String) :
    ∀ (ks : List RKey) (m : RecMap) (x : String) (m' : RecMap),
      renderPlainKeys action ks m = some (x, m') →
      recKeys m' = recKeys m ∧
      (∀ k vs, lookupRec m k = some vs → valuesUntouched k.2.1 vs →
        lookupRec m' k = some vs) := by
  intro ks
  induction ks with
  | nil =>
    intro m x m' h
    have hm : m = m' := congrArg Prod.snd (Option.some.inj h)
    subst hm
    exact ⟨rfl, fun k vs hl _ => hl⟩
  | cons k0 rest ih =>
    intro m x m' h
    simp only [renderPlainKeys] at h
    cases hl : lookupRec m k0 with
    | none => rw [hl] at h; exact Option.noConfusion h
    | some vs0 =>
      rw [hl] at h
      dsimp only at h
      cases hc : changeXml action k0.1 k0.2.1 k0.2.2 vs0 with
      | none => rw [hc] at h; exact Option.noConfusion h
      | some p =>
        obtain ⟨xml, vs0'⟩ := p
        rw [hc] at h
        dsimp only at h
        cases hr : renderPlainKeys action rest (updateRec m k0 vs0') with
        | none => rw [hr] at h; exact Option.noConfusion h
        | some q =>
          obtain ⟨x2, m2⟩ := q
          rw [hr] at h
          dsimp only at h
          have hm' : m2 = m' := congrArg Prod.snd (Option.some.inj h)
          subst hm'
          obtain ⟨ihk, ihp⟩ := ih (updateRec m k0 vs0') x2 m2 hr
          constructor
          · rw [ihk, recKeys_updateRec]
          · intro k vs hlk hu
            by_cases hkk : k = k0
            · subst hkk
              have hvs : vs0 = vs := Option.some.inj (hl.symm.trans hlk)
              have hfix : vs0' = vs0 :=
                changeXml_untouched action k.1 k.2.1 k.2.2 vs0 xml vs0' hc (hvs ▸ hu)
              apply ihp k vs _ hu
              rw [lookupRec_updateRec, if_pos rfl, hl]
              dsimp only [Option.map]
              rw [hfix, hvs]
            · apply ihp k vs _ hu
              rw [lookupRec_updateRec, if_neg hkk]
              exact hlk

theorem renderStageP_spec (action zoneName : String) :
    ∀ (gs : List (List RKey)) (m : RecMap) (ps : List String) (m' : RecMap),
      renderStageP action zoneName gs m = some (ps, m') →
      recKeys m' = recKeys m ∧
      (∀ k vs, lookupRec m k = some vs → valuesUntouched k.2.1 vs →
        lookupRec m' k = some vs) := by
  intro gs
  induction gs with
  | nil =>
    intro m ps m' h
    have hm : m = m' := congrArg Prod.snd (Option.some.inj h)
    subst hm
    exact ⟨rfl, fun k vs hl _ => hl⟩
  | cons g gs ih =>
    intro m ps m' h
    simp only [renderStageP] at h
    cases hg : renderPlainKeys action g m with
    | none => rw [hg] at h; exact Option.noConfusion h
    | some p =>
      obtain ⟨body, m1⟩ := p
      rw [hg] at h
      dsimp only at h
      cases hr : renderStageP action zoneName gs m1 with
      | none => rw [hr] at h; exact Option.noConfusion h
      | some q =>
        obtain ⟨ps2, m2⟩ := q
        rw [hr] at h
        dsimp only at h
        have hm' : m2 = m' := congrArg Prod.snd (Option.some.inj h)
        subst hm'
        obtain ⟨hk1, hp1⟩ := renderPlainKeys_spec action g m body m1 hg
        obtain ⟨hk2, hp2⟩ := ih m1 ps2 m2 hr
        exact ⟨hk2.trans hk1,
          fun k vs hl hu => hp2 k vs (hp1 k vs hl hu) hu⟩

theorem renderUpdKeys_spec :
    ∀ (ks : List RKey) (m : UpdMap) (x : String) (m' : UpdMap),
      renderUpdKeys ks m = some (x, m') →
      recKeys m' = recKeys m ∧
      (∀ k p, lookupRec m k = some p → valuesUntouched k.2.1 p.1 →
        valuesUntouched k.2.1 p.2 → lookupRec m' k = some p) := by
  intro ks
  induction ks with
  | nil =>
    intro m x m' h
    have hm : m = m' := congrArg Prod.snd (Option.some.inj h)
    subst hm
    exact ⟨rfl, fun k p hl _ _ => hl⟩
  | cons k0 rest ih =>
    intro m x m' h
    simp only [renderUpdKeys] at h
    cases hl : lookupRec m k0 with
    | none => rw [hl] at h; exact Option.noConfusion h
    | some p0 =>
      obtain ⟨oldVals, newVals⟩ := p0
      rw [hl] at h
      dsimp only at h
      cases hd : deleteChangeXml k0.1 k0.2.1 k0.2.2 oldVals with
      | none => rw [hd] at h; exact Option.noConfusion h
      | some pd =>
        obtain ⟨dxml, oldVals'⟩ := pd
        rw [hd] at h
        dsimp only at h
        cases hc : addChangeXml k0.1 k0.2.1 k0.2.2 newVals with
        | none => rw [hc] at h; exact Option.noConfusion h
        | some pc =>
          obtain ⟨cxml, newVals'⟩ := pc
          rw [hc] at h
          dsimp only at h
          cases hr : renderUpdKeys rest (updateRec m k0 (oldVals', newVals')) with
          | none => rw [hr] at h; exact Option.noConfusion h
          | some q =>
            obtain ⟨x2, m2⟩ := q
            rw [hr] at h
            dsimp only at h
            have hm' : m2 = m' := congrArg Prod.snd (Option.some.inj h)
            subst hm'
            obtain ⟨ihk, ihp⟩ := ih (updateRec m k0 (oldVals', newVals')) x2 m2 hr
            constructor
            · rw [ihk, recKeys_updateRec]
            · intro k p hlk hu1 hu2
              by_cases hkk : k = k0
              · subst hkk
                have hps : (oldVals, newVals) = p := Option.some.inj (hl.symm.trans hlk)
                have hfix1 : oldVals' = oldVals :=
                  changeXml_untouched "DELETE" k.1 k.2.1 k.2.2 oldVals dxml oldVals' hd
                    (by rw [show oldVals = p.1 from congrArg Prod.fst hps]; exact hu1)
                have hfix2 : newVals' = newVals :=
                  changeXml_untouched "CREATE" k.1 k.2.1 k.2.2 newVals cxml newVals' hc
                    (by rw [show newVals = p.2 from congrArg Prod.snd hps]; exact hu2)
                apply ihp k p _ hu1 hu2
                rw [lookupRec_updateRec, if_pos rfl, hl]
                dsimp only [Option.map]
                rw [hfix1, hfix2, hps]
              · apply ihp k p _ hu1 hu2
                rw [lookupRec_updateRec, if_neg hkk]
                exact hlk

theorem renderStageU_spec (zoneName : String) :
    ∀ (gs : List (List RKey)) (m : UpdMap) (ps : List String) (m' : UpdMap),
      renderStageU zoneName gs m = some (ps, m') →
      recKeys m' = recKeys m ∧
      (∀ k p, lookupRec m k = some p → valuesUntouched k.2.1 p.1 →
        valuesUntouched k.2.1 p.2 → lookupRec m' k = some p) := by
  intro gs
  induction gs with
  | nil =>
    intro m ps m' h
    have hm : m = m' := congrArg Prod.snd (Option.some.inj h)
    subst hm
    exact ⟨rfl, fun k p hl _ _ => hl⟩
  | cons g gs ih =>
    intro m ps m' h
    simp only [renderStageU] at h
    cases hg : renderUpdKeys g m with
    | none => rw [hg] at h; exact Option.noConfusion h
    | some p =>
      obtain ⟨body, m1⟩ := p
      rw [hg] at h
      dsimp only at h
      cases hr : renderStageU zoneName gs m1 with
      | none => rw [hr] at h; exact Option.noConfusion h
      | some q =>
        obtain ⟨ps2, m2⟩ := q
        rw [hr] at h
        dsimp only at h
        have hm' : m2 = m' := congrArg Prod.snd (Option.some.inj h)
        subst hm'
        obtain ⟨hk1, hp1⟩ := renderUpdKeys_spec g m body m1 hg
        obtain ⟨hk2, hp2⟩ := ih m1 ps2 m2 hr
        exact ⟨hk2.trans hk1,
          fun k p hl hu1 hu2 => hp2 k p (hp1 k p hl hu1 hu2) hu1 hu2⟩

/-- C9 (amended): the Change-Batcher adds or removes no dictionary entry and
leaves every value list unchanged, except that for a type-A key whose value
list holds a value beginning with `Alias ` alongside at least one other
value, `Zone._change_xml` removes alias values from that list in place. -/
theorem c9_batcher_mutation (zoneName : String) (adds deletes : RecMap) (updates : UpdMap)
    (res : Option (List String) × RecMap × RecMap × UpdMap)
    (h : createChangeset zoneName adds deletes updates = some res) :
    (recKeys res.2.1 = recKeys adds ∧ recKeys res.2.2.1 = recKeys deletes ∧
      recKeys res.2.2.2 = recKeys updates) ∧
    (∀ k vs, lookupRec adds k = some vs → valuesUntouched k.2.1 vs →
      lookupRec res.2.1 k = some vs) ∧
    (∀ k vs, lookupRec deletes k = some vs → valuesUntouched k.2.1 vs →
      lookupRec res.2.2.1 k = some vs) ∧
    (∀ k p, lookupRec updates k = some p →
      valuesUntouched k.2.1 p.1 → valuesUntouched k.2.1 p.2 →
      lookupRec res.2.2.2 k = some p) := by
  unfold createChangeset at h
  by_cases he : adds.length = 0 ∧ deletes.length = 0 ∧ updates.length = 0
  · rw [if_pos he] at h
    have hres : (none, adds, deletes, updates) = res := Option.some.inj h
    rw [← hres]
    exact ⟨⟨rfl, rfl, rfl⟩, fun k vs hl _ => hl, fun k vs hl _ => hl, fun k p hl _ _ => hl⟩
  · rw [if_neg he] at h
    cases hd : renderStageP "DELETE" zoneName (sliceGroups (recKeys deletes) 100) deletes with
    | none => rw [hd] at h; exact Option.noConfusion h
    | some pd =>
      obtain ⟨dps, deletes'⟩ := pd
      rw [hd] at h
      dsimp only at h
      cases hu : renderStageU zoneName (sliceGroups (recKeys updates) 50) updates with
      | none => rw [hu] at h; exact Option.noConfusion h
      | some pu =>
        obtain ⟨ups, updates'⟩ := pu
        rw [hu] at h
        dsimp only at h
        cases ha : renderStageP "CREATE" zoneName (sliceGroups (recKeys adds) 100) adds with
        | none => rw [ha] at h; exact Option.noConfusion h
        | some pa =>
          obtain ⟨aps, adds'⟩ := pa
          rw [ha] at h
          dsimp only at h
          have hres : (some (dps ++ ups ++ aps), adds', deletes', updates') = res :=
            Option.some.inj h
          rw [← hres]
          obtain ⟨hdk, hdp⟩ :=
            renderStageP_spec "DELETE" zoneName _ deletes dps deletes' hd
          obtain ⟨huk, hup⟩ := renderStageU_spec zoneName _ updates ups updates' hu
          obtain ⟨hak, hap⟩ := renderStageP_spec "CREATE" zoneName _ adds aps adds' ha
          exact ⟨⟨hak, hdk, huk⟩,
            fun k vs hl hun => hap k vs hl hun,
            fun k vs hl hun => hdp k vs hl hun,
            fun k p hl hu1 hu2 => hup k p hl hu1 hu2⟩

set_option maxRecDepth 20000 in
/-- Counterexample for C9 as stated: rendering a changeset whose adds hold a
type-A key with an alias value next to a plain value removes the alias
value from the caller's list in place — the batcher is not free of side
effects on its input. -/
theorem c9_batcher_mutation_counterexample :
    (createChangeset "example.com"
        [(("n.example.com.", "A", 300), ["Alias Z1 t.example.com.", "1.2.3.4"])] [] []).map
        (fun r => r.2.1) =
      some [(("n.example.com.", "A", 300), ["1.2.3.4"])] ∧
    (["1.2.3.4"] : List String) ≠ ["Alias Z1 t.example.com.", "1.2.3.4"] := by
  constructor
  · decide
  · decide

set_option maxRecDepth 20000 in
/-- Witness for C9 at a concrete alias-free changeset. -/
theorem c9_batcher_mutation_witness :
    recKeys csResW.2.1 = recKeys addsW ∧ recKeys csResW.2.2.1 = recKeys delsW ∧
      recKeys csResW.2.2.2 = recKeys updsW :=
  (c9_batcher_mutation "example.com" addsW delsW updsW csResW (by rfl)).1

/-- C5: Batch ordering.  The payload sequence of `Zone._create_changeset` is
the delete-stage payloads, then the update-stage payloads, then the
add-stage payloads, each stage rendering only its own classification's key
groups; and `Zone.update` submits exactly that sequence in order. -/
theorem c5_batch_ordering :
    (∀ (zoneName : String) (adds deletes : RecMap) (updates : UpdMap) css a' d' u',
      createChangeset zoneName adds deletes updates = some (some css, a', d', u') →
      ∃ dps ups aps d2 u2 a2,
        renderStageP "DELETE" zoneName (sliceGroups (recKeys deletes) 100) deletes
          = some (dps, d2) ∧
        renderStageU zoneName (sliceGroups (recKeys updates) 50) updates = some (ups, u2) ∧
        renderStageP "CREATE" zoneName (sliceGroups (recKeys adds) 100) adds = some (aps, a2) ∧
        css = dps ++ ups ++ aps) ∧
    (∀ (zoneName id : String) (live desired : List RawRecord) css a' d' u',
      createChangeset zoneName (compare zoneName live desired).1
          (compare zoneName live desired).2.1 (compare zoneName live desired).2.2
        = some (some css, a', d', u') →
      zoneUpdate zoneName id true live desired false
        = Except.ok (css.map (ProviderCall.changeRRsets id))) := by
  constructor
  · intro zoneName adds deletes updates css a' d' u' h
    unfold createChangeset at h
    by_cases he : adds.length = 0 ∧ deletes.length = 0 ∧ updates.length = 0
    · rw [if_pos he] at h
      have := Option.some.inj h
      exact absurd (congrArg Prod.fst this) (by simp)
    · rw [if_neg he] at h
      cases hd : renderStageP "DELETE" zoneName (sliceGroups (recKeys deletes) 100) deletes with
      | none => rw [hd] at h; exact Option.noConfusion h
      | some pd =>
        obtain ⟨dps, d2⟩ := pd
        rw [hd] at h
        dsimp only at h
        cases hu : renderStageU zoneName (sliceGroups (recKeys updates) 50) updates with
        | none => rw [hu] at h; exact Option.noConfusion h
        | some pu =>
          obtain ⟨ups, u2⟩ := pu
          rw [hu] at h
          dsimp only at h
          cases ha : renderStageP "CREATE" zoneName (sliceGroups (recKeys adds) 100) adds with
          | none => rw [ha] at h; exact Option.noConfusion h
          | some pa =>
            obtain ⟨aps, a2⟩ := pa
            rw [ha] at h
            dsimp only at h
            have hinj := Option.some.inj h
            have hcss : dps ++ ups ++ aps = css := by
              have := congrArg Prod.fst hinj
              exact Option.some.inj this
            exact ⟨dps, ups, aps, d2, u2, a2, rfl, rfl, rfl, hcss.symm⟩
  · intro zoneName id live desired css a' d' u' h
    unfold zoneUpdate
    rw [if_neg (by decide : ¬ ((!true) = true))]
    dsimp only
    rw [h]
    dsimp only
    rw [if_neg (by decide : ¬ (false = true))]

/-- Witness for C5 at a concrete changeset with one add, one delete and one
update. -/
theorem c5_batch_ordering_witness :
    ∃ dps ups aps d2 u2 a2,
      renderStageP "DELETE" "example.com" (sliceGroups (recKeys delsW) 100) delsW
        = some (dps, d2) ∧
      renderStageU "example.com" (sliceGroups (recKeys updsW) 50) updsW = some (ups, u2) ∧
      renderStageP "CREATE" "example.com" (sliceGroups (recKeys addsW) 100) addsW
        = some (aps, a2) ∧
      cssW = dps ++ ups ++ aps :=
  c5_batch_ordering.1 "example.com" addsW delsW updsW cssW
    csResW.2.1 csResW.2.2.1 csResW.2.2.2 (by rfl)

/-- C7: Dry-run never mutates.  With the dry-run flag set, `Zone.create`,
`Zone.update` and `Zone.remove` make no mutating provider call — no hosted
zone creation, no change-batch submission, no hosted zone deletion — on any
input and any live state, whether the run completes or aborts. -/
theorem c7_dry_run_no_mutation (zoneName id newId : String) (idKnown : Bool)
    (cachedId : Option String) (live desired : List RawRecord) :
    callsMade (zoneCreate zoneName cachedId newId desired true) = [] ∧
    callsMade (zoneUpdate zoneName id idKnown live desired true) = [] ∧
    callsMade (zoneRemove zoneName id idKnown live true) = [] := by
  refine ⟨?_, ?_, ?_⟩
  · unfold zoneCreate
    by_cases h : cachedId.isSome
    · rw [if_pos h]
      rfl
    · rw [if_neg h]
      rfl
  · unfold zoneUpdate
    by_cases h : (!idKnown) = true
    · rw [if_pos h]
      rfl
    · rw [if_neg h]
      dsimp only
      cases hcs : createChangeset zoneName (compare zoneName live desired).1
          (compare zoneName live desired).2.1 (compare zoneName live desired).2.2 with
      | none => rfl
      | some r =>
        obtain ⟨csopt, a', d', u'⟩ := r
        cases csopt with
        | none => rfl
        | some css => rfl
  · unfold zoneRemove
    by_cases h : (!idKnown) = true
    · rw [if_pos h]
      rfl
    · rw [if_neg h]
      rfl

/-! String lemmas for the alias codec. -/

theorem strData_append (s t : String) : (s ++ t).data = s.data ++ t.data := rfl

theorem isEmpty_false_of_ne_nil {α : Type} (l : List α) (h : l ≠ []) : l.isEmpty = false := by
  cases l with
  | nil => exact absurd rfl h
  | cons a l => rfl

theorem splitWsAux_nonws :
    ∀ (w rest acc : List Char), (∀ c ∈ w, c.isWhitespace = false) →
      splitWsAux (w ++ rest) acc = splitWsAux rest (w.reverse ++ acc) := by
  intro w
  induction w with
  | nil =>
    intro rest acc _
    simp
  | cons c w' ih =>
    intro rest acc hw
    have hc : c.isWhitespace = false := hw c (List.mem_cons_self _ _)
    rw [List.cons_append]
    show splitWsAux (c :: (w' ++ rest)) acc = _
    simp only [splitWsAux, hc, Bool.false_eq_true, if_false]
    rw [ih rest (c :: acc) (fun x hx => hw x (List.mem_cons_of_mem _ hx))]
    simp [List.reverse_cons, List.append_assoc]

theorem splitWsAux_ws (c : Char) (cs acc : List Char) (hc : c.isWhitespace = true) :
    splitWsAux (c :: cs) acc =
      if acc.isEmpty then splitWsAux cs [] else acc.reverse :: splitWsAux cs [] := by
  simp only [splitWsAux, hc, if_true]

theorem splitWsAux_word_space (w rest : List Char) (hw : ∀ c ∈ w, c.isWhitespace = false)
    (hne : w ≠ []) :
    splitWsAux (w ++ ' ' :: rest) [] = w :: splitWsAux rest [] := by
  rw [splitWsAux_nonws w (' ' :: rest) [] hw,
    splitWsAux_ws ' ' rest (w.reverse ++ []) (by decide), List.append_nil,
    isEmpty_false_of_ne_nil w.reverse (fun hh => hne (List.reverse_eq_nil_iff.mp hh))]
  simp

theorem splitWsAux_final (w : List Char) (hw : ∀ c ∈ w, c.isWhitespace = false)
    (hne : w ≠ []) : splitWsAux w [] = [w] := by
  have h := splitWsAux_nonws w [] [] hw
  rw [List.append_nil] at h
  rw [h]
  show (if (w.reverse ++ []).isEmpty then ([] : List (List Char))
    else [(w.reverse ++ []).reverse]) = [w]
  rw [List.append_nil,
    isEmpty_false_of_ne_nil w.reverse (fun hh => hne (List.reverse_eq_nil_iff.mp hh))]
  simp

theorem pySplit_alias (zid dns : String)
    (hz1 : zid.data ≠ []) (hz2 : ∀ c ∈ zid.data, c.isWhitespace = false)
    (hd1 : dns.data ≠ []) (hd2 : ∀ c ∈ dns.data, c.isWhitespace = false) :
    pySplit ("Alias " ++ zid ++ " " ++ dns) = ["Alias", zid, dns] := by
  have hdata : ("Alias " ++ zid ++ " " ++ dns).data
      = "Alias".data ++ ' ' :: (zid.data ++ ' ' :: dns.data) := by
    simp only [strData_append, List.append_assoc]
    rfl
  unfold pySplit
  rw [hdata, splitWsAux_word_space "Alias".data _ (by decide) (by decide),
    splitWsAux_word_space zid.data _ hz2 hz1, splitWsAux_final dns.data hd2 hd1]
  rfl

theorem stripQuotes_spec (mid : List Char) (hne : mid ≠ [])
    (hh : ∀ c, mid.head? = some c → c ≠ '"')
    (hl : ∀ c, mid.getLast? = some c → c ≠ '"') :
    pyStripQuotes (String.mk ('"' :: (mid ++ ['"']))) = String.mk mid := by
  obtain ⟨c0, mid', rfl⟩ : ∃ c0 mid', mid = c0 :: mid' := by
    cases mid with
    | nil => exact absurd rfl hne
    | cons a l => exact ⟨a, l, rfl⟩
  have hc0 : c0 ≠ '"' := hh c0 rfl
  unfold pyStripQuotes
  have h1 : (('"' :: ((c0 :: mid') ++ ['"'])).dropWhile (fun c => c = '"'))
      = (c0 :: mid') ++ ['"'] := by
    rw [List.dropWhile_cons_of_pos (by simp), List.cons_append,
      List.dropWhile_cons_of_neg (by simpa using hc0)]
  show String.mk ((((('"' :: ((c0 :: mid') ++ ['"'])).dropWhile
    (fun c => c = '"')).reverse.dropWhile (fun c => c = '"')).reverse)) = _
  rw [h1]
  have h2 : ((c0 :: mid') ++ ['"']).reverse = '"' :: (c0 :: mid').reverse := by
    rw [List.reverse_append]
    rfl
  rw [h2, List.dropWhile_cons_of_pos (by simp)]
  cases hrev : (c0 :: mid').reverse with
  | nil => exact absurd (List.reverse_eq_nil_iff.mp hrev) (by simp)
  | cons cl X =>
    have hcl : cl ≠ '"' := by
      apply hl
      rw [← List.head?_reverse, hrev]
      rfl
    rw [List.dropWhile_cons_of_neg (by simpa using hcl), ← hrev, List.reverse_reverse]

theorem getRrecords_encodeAlias (zoneName name : String) (ttl : Nat) (zid dns : String)
    (hd1 : dns.data ≠ []) (hlq : ∀ c, dns.data.getLast? = some c → c ≠ '"') :
    getRrecords zoneName [encodeAlias name ttl zid dns]
      = [((name, "A", ttl), ["Alias " ++ zid ++ " " ++ dns])] := by
  have hdq : ("\"Alias " ++ zid ++ " " ++ dns ++ "\"").data
      = '"' :: (("Alias " ++ zid ++ " " ++ dns).data ++ ['"']) := by
    simp only [strData_append, List.append_assoc]
    rfl
  have hmid_ne : ("Alias " ++ zid ++ " " ++ dns).data ≠ [] := by
    simp only [strData_append, List.append_assoc]
    intro hc
    exact List.noConfusion hc
  have hhd : ∀ c, ("Alias " ++ zid ++ " " ++ dns).data.head? = some c → c ≠ '"' := by
    intro c hc
    have hA : ("Alias " ++ zid ++ " " ++ dns).data.head? = some 'A' := by
      simp only [strData_append, List.append_assoc]
      rfl
    rw [hA] at hc
    cases hc
    decide
  have hgl : ∀ c, ("Alias " ++ zid ++ " " ++ dns).data.getLast? = some c → c ≠ '"' := by
    intro c hc
    apply hlq c
    rw [← hc]
    show dns.data.getLast? = (("Alias " ++ zid ++ " ").data ++ dns.data).getLast?
    exact (List.getLast?_append_of_ne_nil _ hd1).symm
  have hvalue : pyStripQuotes ("\"Alias " ++ zid ++ " " ++ dns ++ "\"")
      = "Alias " ++ zid ++ " " ++ dns := by
    unfold pyStripQuotes
    rw [hdq]
    have hspec := stripQuotes_spec (("Alias " ++ zid ++ " " ++ dns).data) hmid_ne hhd hgl
    unfold pyStripQuotes at hspec
    exact hspec
  have hcond : strTake (strDrop ("\"Alias " ++ zid ++ " " ++ dns ++ "\"") 1) 6 = "Alias " := by
    unfold strTake strDrop
    rw [hdq]
    show String.mk ((("Alias " ++ zid ++ " " ++ dns).data ++ ['"']).take 6) = "Alias "
    have hsh : ("Alias " ++ zid ++ " " ++ dns).data ++ ['"']
        = "Alias ".data ++ (zid.data ++ (" ".data ++ (dns.data ++ ['"']))) := by
      simp only [strData_append, List.append_assoc]
    rw [hsh, List.take_left' (by decide : ("Alias ".data).length = 6)]
  have hname_take : strTake ("_alias." ++ name) 7 = "_alias." := by
    unfold strTake
    rw [strData_append, List.take_left' (by decide : ("_alias.".data).length = 7)]
  have hname_drop : strDrop ("_alias." ++ name) 7 = name := by
    unfold strDrop
    rw [strData_append, List.drop_left' (by decide : ("_alias.".data).length = 7)]
  have hexc : excludedKey zoneName ("_alias." ++ name, "TXT", ttl) = false := by
    unfold excludedKey
    rw [decide_eq_false (by decide : ¬ ("TXT" : String) = "NS"),
      decide_eq_false (by decide : ¬ ("TXT" : String) = "SOA")]
    rfl
  have htrans : transformRecord (encodeAlias name ttl zid dns)
      = ((name, "A", ttl), "Alias " ++ zid ++ " " ++ dns) := by
    unfold transformRecord encodeAlias
    dsimp only
    rw [if_pos ⟨rfl, hcond⟩, if_pos hname_take, hname_drop, hvalue]
  unfold getRrecords
  rw [List.foldl_cons, List.foldl_nil]
  show (if excludedKey zoneName ("_alias." ++ name, "TXT", ttl) = true then ([] : RecMap)
    else mergeRecord [] (transformRecord (encodeAlias name ttl zid dns))) = _
  rw [hexc]
  simp only [Bool.false_eq_true, if_false]
  rw [htrans]
  unfold mergeRecord
  show ([] : RecMap) ++ [((name, "A", ttl), ["Alias " ++ zid ++ " " ++ dns])] = _
  rfl

/-- C2 (amended): Alias round-trip.  For every name, every TTL, and every
nonempty whitespace-free hosted zone id and target DNS name where the
target does not end in a double quote, decoding the synthetic
`_alias.<name>` TXT record produced for a live alias reconstructs the name
byte for byte (with the `_alias.` marker stripped), presents the record
with type `A`, and splitting its canonical value recovers the hosted zone
id as word 1 and the target DNS name as word 2, byte-identically. -/
theorem c2_alias_round_trip (zoneName name : String) (ttl : Nat) (zid dns : String)
    (hz1 : zid.data ≠ []) (hz2 : ∀ c ∈ zid.data, c.isWhitespace = false)
    (hd1 : dns.data ≠ []) (hd2 : ∀ c ∈ dns.data, c.isWhitespace = false)
    (hd3 : ∀ c, dns.data.getLast? = some c → c ≠ '"') :
    getRrecords zoneName [encodeAlias name ttl zid dns]
      = [((name, "A", ttl), ["Alias " ++ zid ++ " " ++ dns])] ∧
    (pySplit ("Alias " ++ zid ++ " " ++ dns)).get? 1 = some zid ∧
    (pySplit ("Alias " ++ zid ++ " " ++ dns)).get? 2 = some dns := by
  refine ⟨getRrecords_encodeAlias zoneName name ttl zid dns hd1 hd3, ?_, ?_⟩ <;>
    rw [pySplit_alias zid dns hz1 hz2 hd1 hd2] <;> rfl

set_option maxRecDepth 20000 in
/-- Counterexample for C2 as stated: with a target DNS name containing a
space (`a b`), the decoded alias value splits so that word 2 — the
reconstructed target DNS name used by `Zone._change_alias_xml` — is `a`,
not the original `a b`; the round-trip is not byte-identical for all
inputs. -/
theorem c2_alias_round_trip_counterexample :
    getRrecords "example.com" [encodeAlias "foo.example.com." 300 "Z1" "a b"]
      = [(("foo.example.com.", "A", 300), ["Alias Z1 a b"])] ∧
    (pySplit "Alias Z1 a b").get? 2 = some "a" ∧
    ("a" : String) ≠ "a b" :=
  ⟨by decide, by decide, by decide⟩

set_option maxRecDepth 20000 in
/-- Witness for C2 at a concrete well-formed alias. -/
theorem c2_alias_round_trip_witness :
    getRrecords "example.com" [encodeAlias "foo.example.com." 300 "Z123" "target.example.com."]
      = [(("foo.example.com.", "A", 300),
          ["Alias " ++ "Z123" ++ " " ++ "target.example.com."])] ∧
    (pySplit ("Alias " ++ "Z123" ++ " " ++ "target.example.com.")).get? 1 = some "Z123" ∧
    (pySplit ("Alias " ++ "Z123" ++ " " ++ "target.example.com.")).get? 2
      = some "target.example.com." :=
  c2_alias_round_trip "example.com" "foo.example.com." 300 "Z123" "target.example.com."
    (by decide) (by decide) (by decide) (by decide) (by decide)

/-- C8 (amended): Alias decode conditions.  The extractor turns a TXT record
into an alias exactly when its value's characters at positions 1 through 6
read `Alias ` (the check skips the first character and does not
quote-strip); the decoded record presents as type `A` with the quotes
stripped from its value and the `_alias.` name marker removed when present;
every other TXT record passes through unmodified; and rendering the alias
value succeeds exactly when it splits into at least three
whitespace-separated words, of which words 1 and 2 are used as
(hostedZoneId, targetDnsName). -/
theorem c8_alias_decode_conditions :
    (∀ r : RawRecord, r.rtype = "TXT" → ¬ strTake (strDrop r.rvalue 1) 6 = "Alias " →
      transformRecord r = ((r.name, r.rtype, r.ttl), r.rvalue)) ∧
    (∀ r : RawRecord, r.rtype = "TXT" → strTake (strDrop r.rvalue 1) 6 = "Alias " →
      transformRecord r =
        ((if strTake r.name 7 = "_alias." then strDrop r.name 7 else r.name, "A", r.ttl),
          pyStripQuotes r.rvalue)) ∧
    (∀ action name rvalue, (changeAliasXml action name rvalue).isSome = true
      ↔ 3 ≤ (pySplit rvalue).length) := by
  refine ⟨?_, ?_, changeAliasXml_isSome⟩
  · intro r h1 h2
    unfold transformRecord
    rw [if_neg (fun hc => h2 hc.2)]
  · intro r h1 h2
    unfold transformRecord
    rw [if_pos ⟨h1, h2⟩]

set_option maxRecDepth 20000 in
/-- Counterexample for C8 as stated: the value `xAlias Z T` is decoded as an
alias although its quote-stripped form does not start with `Alias ` (the
code checks characters 1..6, not the stripped prefix), and a value with
four words (`Alias a b c`) renders without any exactly-two-token check. -/
theorem c8_alias_decode_conditions_counterexample :
    strTake (pyStripQuotes "xAlias Z T") 6 ≠ "Alias " ∧
    transformRecord ⟨"n.example.com.", 300, "TXT", "xAlias Z T"⟩
      = (("n.example.com.", "A", 300), "xAlias Z T") ∧
    (changeAliasXml "CREATE" "n.example.com." "Alias a b c").isSome = true :=
  ⟨by decide, by decide, by decide⟩

/-- Witness for C8 at a concrete plain TXT record. -/
theorem c8_alias_decode_conditions_witness :
    transformRecord ⟨"plain.example.com.", 300, "TXT", "\"just text\""⟩
      = (("plain.example.com.", "TXT", 300), "\"just text\"") :=
  c8_alias_decode_conditions.1 ⟨"plain.example.com.", 300, "TXT", "\"just text\""⟩ rfl
    (by decide)

/-! Pagination lemmas. -/

theorem strAppend_assoc (a b c : String) : a ++ b ++ c = a ++ (b ++ c) :=
  congrArg String.mk (List.append_assoc a.data b.data c.data)

theorem strcat_append (a b : List String) : strcat (a ++ b) = strcat a ++ strcat b := by
  induction a with
  | nil => rfl
  | cons s a ih =>
    show s ++ strcat (a ++ b) = (s ++ strcat a) ++ strcat b
    rw [ih, strAppend_assoc]

theorem dropThrough_spec (x : RRSet) :
    ∀ (pre suf : List RRSet),
      ((pre ++ x :: suf).map (fun r => (r.rtype, r.name))).Nodup →
      dropThrough (pre ++ x :: suf) x.rtype x.name = suf := by
  intro pre
  induction pre with
  | nil =>
    intro suf _
    show dropThrough (x :: suf) x.rtype x.name = suf
    unfold dropThrough
    rw [if_pos ⟨rfl, rfl⟩]
  | cons a pre ih =>
    intro suf hnd
    rw [List.cons_append] at hnd
    show dropThrough (a :: (pre ++ x :: suf)) x.rtype x.name = suf
    unfold dropThrough
    have hne : ¬ (a.rtype = x.rtype ∧ a.name = x.name) := by
      intro hc
      rw [List.map_cons, List.nodup_cons] at hnd
      apply hnd.1
      rw [show ((a.rtype, a.name) : String × String) = (x.rtype, x.name) from by
        rw [hc.1, hc.2]]
      exact List.mem_map_of_mem _ (List.mem_append_right _ (List.mem_cons_self _ _))
    rw [if_neg hne]
    exact ih suf (by rw [List.map_cons, List.nodup_cons] at hnd; exact hnd.2)

theorem toDnszoneLoop_spec (zone : List RRSet)
    (hnd : (zone.map (fun r => (r.rtype, r.name))).Nodup) :
    ∀ (fuel : Nat) (pre : List RRSet) (x : RRSet) (suf : List RRSet),
      zone = pre ++ x :: suf → suf.length < fuel →
      toDnszoneLoop zone fuel (some x.rtype) (some x.name)
        = strcat (suf.map renderRRSet) := by
  intro fuel
  induction fuel with
  | zero =>
    intro pre x suf _ h
    omega
  | succ fuel ih =>
    intro pre x suf hz hlen
    have hdrop : dropThrough zone x.rtype x.name = suf := by
      rw [hz]
      exact dropThrough_spec x pre suf (hz ▸ hnd)
    have hpage : getAllRrsets zone (some x.rtype) (some x.name) = suf.take 100 := by
      unfold getAllRrsets
      dsimp only
      rw [hdrop]
    have hrr : getRrsets zone (some x.rtype) (some x.name)
        = (strcat ((suf.take 100).map renderRRSet), (suf.take 100).length,
          ((suf.take 100).getLast?).map RRSet.rtype,
          ((suf.take 100).getLast?).map RRSet.name) := by
      unfold getRrsets
      rw [hpage]
    simp only [toDnszoneLoop]
    rw [hrr]
    dsimp only
    by_cases hbig : 100 ≤ suf.length
    · have htlen : (suf.take 100).length = 100 := by
        rw [List.length_take]
        omega
      rw [if_pos (by rw [htlen]; omega)]
      have ht_ne : suf.take 100 ≠ [] := by
        intro hc
        rw [hc] at htlen
        exact absurd htlen (by decide)
      have hglast : (suf.take 100).getLast? = some ((suf.take 100).getLast ht_ne) :=
        List.getLast?_eq_getLast _ ht_ne
      rw [hglast]
      have hsuf : (suf.take 100).dropLast ++ ((suf.take 100).getLast ht_ne) :: suf.drop 100
          = suf := by
        rw [show ((suf.take 100).getLast ht_ne) :: suf.drop 100
          = [(suf.take 100).getLast ht_ne] ++ suf.drop 100 from rfl]
        rw [← List.append_assoc, List.dropLast_append_getLast ht_ne,
          List.take_append_drop]
      have hdecomp : zone = (pre ++ x :: (suf.take 100).dropLast)
          ++ ((suf.take 100).getLast ht_ne) :: suf.drop 100 := by
        conv_rhs => rw [List.append_assoc, List.cons_append, hsuf]
        exact hz
      have hrec := ih (pre ++ x :: (suf.take 100).dropLast)
        ((suf.take 100).getLast ht_ne) (suf.drop 100) hdecomp
        (by rw [List.length_drop]; omega)
      simp only [Option.map_some']
      rw [hrec]
      rw [← strcat_append, ← List.map_append, List.take_append_drop]
    · rw [if_neg (by rw [List.length_take]; omega)]
      rw [List.take_of_length_le (by omega)]

/-- C6: Provider pagination.  For every live zone listing whose records have
pairwise distinct (type, name) cursor keys, the polling loop of
`Zone._to_dnszone` — fetching again from the last (type, name) cursor for
as long as a page holds 100 or more records — assembles exactly the
rendering of every record in order: no record is dropped, however large the
zone. -/
theorem c6_provider_pagination (zone : List RRSet)
    (hnd : (zone.map (fun r => (r.rtype, r.name))).Nodup) :
    toDnszone zone = strcat (zone.map renderRRSet) := by
  unfold toDnszone
  have hpage : getAllRrsets zone none none = zone.take 100 := by
    unfold getAllRrsets
    rfl
  have hrr : getRrsets zone none none
      = (strcat ((zone.take 100).map renderRRSet), (zone.take 100).length,
        ((zone.take 100).getLast?).map RRSet.rtype,
        ((zone.take 100).getLast?).map RRSet.name) := by
    unfold getRrsets
    rw [hpage]
  simp only [toDnszoneLoop]
  rw [hrr]
  dsimp only
  by_cases hbig : 100 ≤ zone.length
  · have htlen : (zone.take 100).length = 100 := by
      rw [List.length_take]
      omega
    rw [if_pos (by rw [htlen]; omega)]
    have ht_ne : zone.take 100 ≠ [] := by
      intro hc
      rw [hc] at htlen
      exact absurd htlen (by decide)
    have hglast : (zone.take 100).getLast? = some ((zone.take 100).getLast ht_ne) :=
      List.getLast?_eq_getLast _ ht_ne
    rw [hglast]
    have hdecomp : zone = (zone.take 100).dropLast
        ++ ((zone.take 100).getLast ht_ne) :: zone.drop 100 := by
      conv_rhs => rw [show ((zone.take 100).getLast ht_ne) :: zone.drop 100
        = [(zone.take 100).getLast ht_ne] ++ zone.drop 100 from rfl,
        ← List.append_assoc, List.dropLast_append_getLast ht_ne,
        List.take_append_drop]
    have hrec := toDnszoneLoop_spec zone hnd zone.length
      ((zone.take 100).dropLast) ((zone.take 100).getLast ht_ne) (zone.drop 100)
      hdecomp (by rw [List.length_drop]; omega)
    simp only [Option.map_some']
    rw [hrec]
    rw [← strcat_append, ← List.map_append]
    conv_rhs => rw [show zone = zone.take 100 ++ zone.drop 100 from
      (List.take_append_drop 100 zone).symm]
  · rw [if_neg (by rw [List.length_take]; omega)]
    rw [List.take_of_length_le (by omega)]

set_option maxRecDepth 40000 in
/-- Witness for C6 at a concrete 101-record zone spanning two pages. -/
theorem c6_provider_pagination_witness :
    toDnszone zone101 = strcat (zone101.map renderRRSet) :=
  c6_provider_pagination zone101 (by decide)

end Cirrus















